import Mathlib

/-!
Verification of the agenticSearch retrieval core.

This file gives a shallow embedding, in Lean 4, of the pure retrieval logic
of the repository (RRF fusion, call-graph edge resolution and chain tracing,
the selector/reranker orchestration, fixed-window chunking, the vector-index
cache check, and the symbol-index accumulation), and proves or refutes the
frozen claims about it.

Modelling conventions:
* Python strings are modelled as `List Char` (`PyStr`), with the needed
  string operations (startswith, endswith, split, lower, strip, substring
  containment) implemented over character lists with Python's semantics.
* Python floats are modelled as rationals `ℚ` (exact real arithmetic).
* Python dicts keyed by hashable values are modelled as insertion-ordered
  association lists with unique keys; Python sets are modelled as lists
  queried only through membership and unique-match counting, so the
  modelled behaviour does not depend on element order.
* `sorted(..., key=..., reverse=True)` is modelled as a comparison sort by
  the same key (`sortByRel`); no claim depends on tie order, which the spec
  declares unspecified.
* Filesystem walking, AST parsing, embedding models and the FAISS library
  are external effects; where a claim touches them they appear as explicit
  inputs (e.g. the list of chunked files, the extractor output per file,
  the cached vector count) rather than as IO.
-/

/-- Python strings as character lists (so every operation computes in the
kernel). -/
abbrev PyStr := List Char

/-- Convert a Lean string literal to the `PyStr` model. -/
def pys (s : String) : PyStr := s.toList

/-- Python `s.endswith(suffix)` on the `PyStr` model. -/
def strEndsWith (s suf : PyStr) : Bool := suf.reverse.isPrefixOf s.reverse

/-- Python `s.startswith(pre)` on the `PyStr` model. -/
def strStartsWith (s pre : PyStr) : Bool := pre.isPrefixOf s

/-- Python `s.lower()` on the `PyStr` model (ASCII case folding, as used by
the code for identifier comparison). -/
def strLower (s : PyStr) : PyStr := s.map Char.toLower

/-- Python `needle in hay` (substring containment) on the `PyStr` model. -/
def strContainsSub (hay needle : PyStr) : Bool :=
  match hay with
  | [] => needle.isEmpty
  | c :: rest => needle.isPrefixOf (c :: rest) || strContainsSub rest needle

/-- Python `s.split(".")[-1]`: the text after the last `'.'` (the whole
string when no dot is present). -/
def lastComponent (s : PyStr) : PyStr := (s.reverse.takeWhile (· ≠ '.')).reverse

/-- Python whitespace characters recognised by `str.strip()`. -/
def isPyWS (c : Char) : Bool :=
  c = ' ' || c = '\t' || c = '\n' || c = '\r' || c = '\x0b' || c = '\x0c'

/-- Python `s.strip()`: remove leading and trailing whitespace. -/
def pyStrip (s : PyStr) : PyStr :=
  ((s.dropWhile isPyWS).reverse.dropWhile isPyWS).reverse

/-- Render a natural number, for chunk content headers. -/
def natStr (n : ℕ) : PyStr := (toString n).toList

/-! ### A stable comparison sort

`sortByRel le` models Python's `sorted` / `list.sort` with a boolean
comparison: insertion sort, kept elementary so that concrete instances
evaluate in the kernel and sortedness/permutation lemmas are direct. -/

/-- Insert `a` into `l` before the first element `b` with `le a b`. -/
def insertByRel (le : α → α → Bool) (a : α) : List α → List α
  | [] => [a]
  | b :: l => if le a b then a :: b :: l else b :: insertByRel le a l

/-- Comparison sort used to model Python's `sorted`. -/
def sortByRel (le : α → α → Bool) : List α → List α
  | [] => []
  | a :: l => insertByRel le a (sortByRel le l)

theorem perm_insertByRel (le : α → α → Bool) (a : α) (l : List α) :
    (insertByRel le a l).Perm (a :: l) := by
  induction l with
  | nil => simp [insertByRel]
  | cons b t ih =>
    by_cases h : le a b
    · simp [insertByRel, h]
    · simp only [insertByRel, h, if_neg, Bool.false_eq_true, not_false_iff, ite_false]
      exact (ih.cons b).trans (List.Perm.swap a b t)

theorem perm_sortByRel (le : α → α → Bool) (l : List α) :
    (sortByRel le l).Perm l := by
  induction l with
  | nil => simp [sortByRel]
  | cons a t ih => exact (perm_insertByRel le a (sortByRel le t)).trans (ih.cons a)

theorem mem_sortByRel (le : α → α → Bool) (l : List α) (x : α) :
    x ∈ sortByRel le l ↔ x ∈ l :=
  (perm_sortByRel le l).mem_iff

theorem pairwise_insertByRel (le : α → α → Bool)
    (htot : ∀ a b, le a b || le b a) (htrans : ∀ a b c, le a b → le b c → le a c)
    (a : α) (l : List α) (h : l.Pairwise (fun x y => le x y = true)) :
    (insertByRel le a l).Pairwise (fun x y => le x y = true) := by
  induction l with
  | nil => simp [insertByRel]
  | cons b t ih =>
    by_cases hab : le a b
    · simp only [insertByRel, hab, if_true]
      refine List.Pairwise.cons ?_ h
      intro x hx
      rcases List.mem_cons.mp hx with hx | hx
      · subst hx; exact hab
      · exact htrans a b x hab (List.rel_of_pairwise_cons h hx)
    · simp only [insertByRel, hab, Bool.false_eq_true, not_false_iff, ite_false]
      refine List.Pairwise.cons ?_ (ih h.of_cons)
      intro x hx
      have hx' := (perm_insertByRel le a t).mem_iff.mp hx
      rcases List.mem_cons.mp hx' with hx' | hx'
      · rw [hx']
        have := htot a b
        simpa [hab] using this
      · exact List.rel_of_pairwise_cons h hx'

theorem pairwise_sortByRel (le : α → α → Bool)
    (htot : ∀ a b, le a b || le b a) (htrans : ∀ a b c, le a b → le b c → le a c)
    (l : List α) : (sortByRel le l).Pairwise (fun x y => le x y = true) := by
  induction l with
  | nil => simp [sortByRel]
  | cons a t ih => exact pairwise_insertByRel le htot htrans a (sortByRel le t) ih

/-! ### Data model: chunks

`Chunk` is the retrievable unit produced by every search tool
(`file`, `start_line`, `end_line`, `content`); the triple
`(file, start_line, end_line)` is the fusion/deduplication key
(src/main.py, src/src/tools/vector_search_tool.py). -/

structure Chunk where
  file : PyStr
  start_line : ℕ
  end_line : ℕ
  content : PyStr
deriving DecidableEq, Repr

/-- The deduplication key `(doc["file"], doc["start_line"], doc["end_line"])`. -/
abbrev ChunkKey := PyStr × ℕ × ℕ

def chunkKey (c : Chunk) : ChunkKey := (c.file, c.start_line, c.end_line)

/-! ### Reranker (src/src/reranker.py, `CrossEncoderReranker.rerank`)

The cross-encoder model is external; it is modelled as an optional scoring
function over (query, chunk) pairs (`none` models a model that failed to
load, i.e. `self.model is None`). The code truncates content to 1000
characters before scoring; that truncation is absorbed into the abstract
scorer. Scoring in the code mutates each dict with a `rerank_score` key
and sorts by it descending; the model sorts by the scorer's value
descending. `if not chunks or not self.model: return chunks[:top_k]`. -/

def rerank (model : Option (PyStr → Chunk → ℚ)) (query : PyStr)
    (chunks : List Chunk) (top_k : ℕ) : List Chunk :=
  match model with
  | none => chunks.take top_k
  | some f =>
    if chunks.isEmpty then chunks.take top_k
    else (sortByRel (fun a b => decide (f query b ≤ f query a)) chunks).take top_k

/-! ### Selector slot budget and final merge (src/main.py lines 233-248) -/

/-- `slots_remaining = 8 - len(targeted_chunks); if slots_remaining < 3:
slots_remaining = 3` (Python ints, so computed in `ℤ`). -/
def slots_remaining (targetedCount : ℕ) : ℤ :=
  let s : ℤ := 8 - (targetedCount : ℤ)
  if s < 3 then 3 else s

/-- The final merge loop of `main`: targeted chunks first, then each
reranked chunk whose file is not yet in `seen_paths`, which starts as the
set of targeted files and grows with each appended chunk. -/
def selectTopChunks (targeted reranked : List Chunk) : List Chunk :=
  (reranked.foldl
    (fun acc c => if c.file ∈ acc.2 then acc else (acc.1 ++ [c], acc.2 ++ [c.file]))
    (targeted, targeted.map Chunk.file)).1

/-! ### Reciprocal Rank Fusion (src/main.py, `reciprocal_rank_fusion`)

The Python function builds two insertion-ordered dicts keyed by the chunk
triple — `scores` and `doc_map` — then sorts the keys by score descending.
Both dicts are modelled together as one insertion-ordered association list
of `RRFEntry` records (key, running score, first-seen doc). -/

structure RRFEntry where
  key : ChunkKey
  score : ℚ
  doc : Chunk
deriving DecidableEq, Repr

/-- The per-occurrence contribution `1.0 / (k + (rank + 1))`, rank 0-based. -/
def rrfContribution (k rank : ℕ) : ℚ := 1 / ((k : ℚ) + ((rank : ℚ) + 1))

/-- One iteration of the inner loop: `scores[key] += 1.0 / (k + (rank+1))`,
registering the key (with the current doc) first if absent. -/
def rrfInsert (k : ℕ) (st : List RRFEntry) (rank : ℕ) (doc : Chunk) :
    List RRFEntry :=
  if st.any (fun e => e.key = chunkKey doc) then
    st.map (fun e =>
      if e.key = chunkKey doc then ⟨e.key, e.score + rrfContribution k rank, e.doc⟩
      else e)
  else st ++ [⟨chunkKey doc, rrfContribution k rank, doc⟩]

/-- `for rank, doc in enumerate(results): ...` -/
def rrfProcessList (k : ℕ) (st : List RRFEntry) (results : List Chunk) :
    List RRFEntry :=
  results.enum.foldl (fun s p => rrfInsert k s p.1 p.2) st

/-- The state after both loops of `reciprocal_rank_fusion`. -/
def rrfState (k : ℕ) (results_lists : List (List Chunk)) : List RRFEntry :=
  results_lists.foldl (rrfProcessList k) []

/-- Comparison used by `sorted(scores.keys(), key=lambda x: scores[x],
reverse=True)`. -/
def rrfLe (a b : RRFEntry) : Bool := decide (b.score ≤ a.score)

/-- The default RRF constant (`k: int = 60`). -/
def RRF_K : ℕ := 60

/-- `reciprocal_rank_fusion`: accumulate scores, then emit the docs with
their `rrf_score`, sorted by score descending. -/
def reciprocal_rank_fusion (results_lists : List (List Chunk)) (k : ℕ) :
    List RRFEntry :=
  sortByRel rrfLe (rrfState k results_lists)

/-- The keys of the accumulated state, in insertion order. -/
def rrfKeys (st : List RRFEntry) : List ChunkKey := st.map RRFEntry.key

/-- Total score currently recorded for key `q` (sum over matching entries;
with unique keys this is the unique entry's score, and `0` if absent). -/
def scoreOf (st : List RRFEntry) (q : ChunkKey) : ℚ :=
  ((st.filter (fun e => e.key = q)).map RRFEntry.score).sum

/-- Specification-side sum: the contribution of a single ranked list to key
`q`, ranks counted from `n` — `1/(k+r+1)` for each occurrence of the key at
0-based rank `r`. -/
def listScoreFrom (k : ℕ) (q : ChunkKey) : ℕ → List Chunk → ℚ
  | _, [] => 0
  | n, d :: ds =>
    (if chunkKey d = q then rrfContribution k n else 0) + listScoreFrom k q (n + 1) ds

/-- Specification-side sum over all input lists for key `q` (lists not
containing the key contribute `0`). -/
def totalScore (k : ℕ) (q : ChunkKey) (results_lists : List (List Chunk)) : ℚ :=
  (results_lists.map (listScoreFrom k q 0)).sum

theorem scoreOf_eq_zero_of_not_mem (st : List RRFEntry) (q : ChunkKey)
    (h : q ∉ rrfKeys st) : scoreOf st q = 0 := by
  induction st with
  | nil => simp [scoreOf]
  | cons e t ih =>
    have hne : ¬ e.key = q := by
      intro hk
      exact h (by simp [rrfKeys, hk])
    have ht : q ∉ rrfKeys t := fun hm => h (by simp [rrfKeys] at hm ⊢; right; exact hm)
    simp [scoreOf, List.filter_cons, hne] at *
    exact ih ht

theorem any_key_eq (st : List RRFEntry) (q : ChunkKey) :
    (st.any fun e => e.key = q) = true ↔ q ∈ rrfKeys st := by
  rw [List.any_eq_true]
  constructor
  · rintro ⟨e, he, hk⟩
    simp only [decide_eq_true_eq] at hk
    exact hk ▸ List.mem_map_of_mem RRFEntry.key he
  · intro h
    rcases List.mem_map.mp h with ⟨e, he, hk⟩
    exact ⟨e, he, by simp [hk]⟩

theorem rrfKeys_rrfInsert (k : ℕ) (st : List RRFEntry) (rank : ℕ) (doc : Chunk) :
    rrfKeys (rrfInsert k st rank doc) =
      if chunkKey doc ∈ rrfKeys st then rrfKeys st
      else rrfKeys st ++ [chunkKey doc] := by
  by_cases hmem : chunkKey doc ∈ rrfKeys st
  · rw [rrfInsert, if_pos ((any_key_eq st _).mpr hmem), if_pos hmem]
    unfold rrfKeys
    rw [List.map_map]
    refine List.map_congr_left ?_
    intro e _
    by_cases he : e.key = chunkKey doc <;> simp [he]
  · rw [rrfInsert, if_neg (fun h => hmem ((any_key_eq st _).mp h)), if_neg hmem]
    simp [rrfKeys]

theorem mem_rrfKeys_rrfInsert (k : ℕ) (st : List RRFEntry) (rank : ℕ)
    (doc : Chunk) (q : ChunkKey) :
    q ∈ rrfKeys (rrfInsert k st rank doc) ↔ q ∈ rrfKeys st ∨ q = chunkKey doc := by
  rw [rrfKeys_rrfInsert]
  by_cases hmem : chunkKey doc ∈ rrfKeys st
  · simp only [hmem, if_true]
    constructor
    · exact fun h => Or.inl h
    · rintro (h | h)
      · exact h
      · rw [h]; exact hmem
  · simp [hmem]

theorem nodup_rrfKeys_rrfInsert (k : ℕ) (st : List RRFEntry) (rank : ℕ)
    (doc : Chunk) (h : (rrfKeys st).Nodup) :
    (rrfKeys (rrfInsert k st rank doc)).Nodup := by
  rw [rrfKeys_rrfInsert]
  by_cases hmem : chunkKey doc ∈ rrfKeys st
  · simpa [hmem] using h
  · simp only [hmem, if_false, ite_false]
    simpa [List.nodup_append, hmem] using h

theorem scoreOf_cons (e : RRFEntry) (t : List RRFEntry) (q : ChunkKey) :
    scoreOf (e :: t) q = (if e.key = q then e.score else 0) + scoreOf t q := by
  by_cases h : e.key = q <;> simp [scoreOf, List.filter_cons, h]

theorem scoreOf_append (a b : List RRFEntry) (q : ChunkKey) :
    scoreOf (a ++ b) q = scoreOf a q + scoreOf b q := by
  simp [scoreOf, List.filter_append]

theorem rrfKeys_mapBump (k rank : ℕ) (ck : ChunkKey) (st : List RRFEntry) :
    rrfKeys (st.map fun e =>
      if e.key = ck then ⟨e.key, e.score + rrfContribution k rank, e.doc⟩ else e) =
      rrfKeys st := by
  unfold rrfKeys
  rw [List.map_map]
  refine List.map_congr_left ?_
  intro e _
  by_cases he : e.key = ck <;> simp [he]

theorem scoreOf_mapBump (k rank : ℕ) (ck q : ChunkKey) (st : List RRFEntry)
    (hnd : (rrfKeys st).Nodup) (himp : ck = q → ck ∈ rrfKeys st) :
    scoreOf (st.map fun e =>
      if e.key = ck then ⟨e.key, e.score + rrfContribution k rank, e.doc⟩ else e) q
      = scoreOf st q + (if ck = q then rrfContribution k rank else 0) := by
  induction st with
  | nil =>
    by_cases hq : ck = q
    · exact absurd (himp hq) (by simp [rrfKeys])
    · simp [scoreOf, hq]
  | cons e t ih =>
    have hnd' : (e.key :: List.map RRFEntry.key t).Nodup := by
      rw [rrfKeys, List.map_cons] at hnd
      exact hnd
    have h1 := List.nodup_cons.mp hnd'
    have hndt : (rrfKeys t).Nodup := h1.2
    have hhead : e.key ∉ rrfKeys t := h1.1
    have himp' : ck = q → ¬ e.key = ck → ck ∈ rrfKeys t := by
      intro h hne
      have hm := himp h
      rw [rrfKeys, List.map_cons] at hm
      rcases List.mem_cons.mp hm with h2 | h2
      · exact absurd h2.symm hne
      · exact h2
    by_cases he : e.key = ck
    · have hbump : (if e.key = ck then
          (⟨e.key, e.score + rrfContribution k rank, e.doc⟩ : RRFEntry) else e) =
          ⟨e.key, e.score + rrfContribution k rank, e.doc⟩ := by
        simp [he]
      rw [List.map_cons, hbump, scoreOf_cons, scoreOf_cons]
      by_cases hq : ck = q
      · subst hq
        have htz : scoreOf t ck = 0 :=
          scoreOf_eq_zero_of_not_mem t ck (he ▸ hhead)
        have htz2 : scoreOf (t.map fun e =>
            if e.key = ck then ⟨e.key, e.score + rrfContribution k rank, e.doc⟩ else e) ck = 0 := by
          refine scoreOf_eq_zero_of_not_mem _ ck ?_
          rw [rrfKeys_mapBump]
          exact he ▸ hhead
        simp only [he, if_true, htz, htz2, ite_true]
        ring
      · have hkq : ¬ e.key = q := by rw [he]; exact hq
        have hrec := ih hndt (fun h => absurd h hq)
        rw [hrec]
        simp only [hkq, if_false, hq, ite_false]
        ring
    · have hbump : (if e.key = ck then
          (⟨e.key, e.score + rrfContribution k rank, e.doc⟩ : RRFEntry) else e) = e := by
        simp [he]
      rw [List.map_cons, hbump, scoreOf_cons, scoreOf_cons]
      have hrec := ih hndt (fun h => himp' h he)
      rw [hrec]
      ring

theorem scoreOf_rrfInsert (k : ℕ) (st : List RRFEntry) (rank : ℕ) (doc : Chunk)
    (q : ChunkKey) (hnd : (rrfKeys st).Nodup) :
    scoreOf (rrfInsert k st rank doc) q =
      scoreOf st q + (if chunkKey doc = q then rrfContribution k rank else 0) := by
  by_cases hmem : chunkKey doc ∈ rrfKeys st
  · rw [rrfInsert, if_pos ((any_key_eq st _).mpr hmem)]
    exact scoreOf_mapBump k rank (chunkKey doc) q st hnd (fun _ => hmem)
  · rw [rrfInsert, if_neg (fun h => hmem ((any_key_eq st _).mp h))]
    rw [scoreOf_append]
    by_cases hq : chunkKey doc = q <;> simp [scoreOf_cons, scoreOf, hq]

theorem scoreOf_processFrom (k : ℕ) (q : ChunkKey) :
    ∀ (l : List Chunk) (n : ℕ) (st : List RRFEntry), (rrfKeys st).Nodup →
      scoreOf ((l.enumFrom n).foldl (fun s p => rrfInsert k s p.1 p.2) st) q
        = scoreOf st q + listScoreFrom k q n l := by
  intro l
  induction l with
  | nil => intro n st _; simp [List.enumFrom, listScoreFrom]
  | cons d ds ih =>
    intro n st hnd
    have hnd' := nodup_rrfKeys_rrfInsert k st n d hnd
    simp only [List.enumFrom, List.foldl_cons, listScoreFrom]
    rw [ih (n + 1) (rrfInsert k st n d) hnd', scoreOf_rrfInsert k st n d q hnd]
    ring

theorem nodup_processFrom (k : ℕ) :
    ∀ (l : List Chunk) (n : ℕ) (st : List RRFEntry), (rrfKeys st).Nodup →
      (rrfKeys ((l.enumFrom n).foldl (fun s p => rrfInsert k s p.1 p.2) st)).Nodup := by
  intro l
  induction l with
  | nil => intro n st hnd; simpa [List.enumFrom] using hnd
  | cons d ds ih =>
    intro n st hnd
    simp only [List.enumFrom, List.foldl_cons]
    exact ih (n + 1) _ (nodup_rrfKeys_rrfInsert k st n d hnd)

theorem mem_processFrom (k : ℕ) (q : ChunkKey) :
    ∀ (l : List Chunk) (n : ℕ) (st : List RRFEntry),
      (q ∈ rrfKeys ((l.enumFrom n).foldl (fun s p => rrfInsert k s p.1 p.2) st)
        ↔ q ∈ rrfKeys st ∨ q ∈ l.map chunkKey) := by
  intro l
  induction l with
  | nil => intro n st; simp [List.enumFrom]
  | cons d ds ih =>
    intro n st
    simp only [List.enumFrom, List.foldl_cons]
    rw [ih (n + 1) (rrfInsert k st n d)]
    rw [mem_rrfKeys_rrfInsert]
    simp only [List.map_cons, List.mem_cons]
    tauto

theorem enum_eq_enumFrom (l : List Chunk) : l.enum = l.enumFrom 0 := rfl

theorem scoreOf_rrfState_fold (k : ℕ) (q : ChunkKey) :
    ∀ (lists : List (List Chunk)) (st : List RRFEntry), (rrfKeys st).Nodup →
      scoreOf (lists.foldl (rrfProcessList k) st) q
        = scoreOf st q + (lists.map (listScoreFrom k q 0)).sum := by
  intro lists
  induction lists with
  | nil => intro st _; simp
  | cons l ls ih =>
    intro st hnd
    simp only [List.foldl_cons, List.map_cons, List.sum_cons]
    have hnd' : (rrfKeys (rrfProcessList k st l)).Nodup := by
      unfold rrfProcessList
      rw [enum_eq_enumFrom]
      exact nodup_processFrom k l 0 st hnd
    rw [ih (rrfProcessList k st l) hnd']
    unfold rrfProcessList
    rw [enum_eq_enumFrom, scoreOf_processFrom k q l 0 st hnd]
    ring

theorem nodup_rrfState (k : ℕ) (lists : List (List Chunk)) :
    (rrfKeys (rrfState k lists)).Nodup := by
  unfold rrfState
  suffices h : ∀ (ls : List (List Chunk)) (st : List RRFEntry), (rrfKeys st).Nodup →
      (rrfKeys (ls.foldl (rrfProcessList k) st)).Nodup by
    exact h lists [] (by simp [rrfKeys])
  intro ls
  induction ls with
  | nil => intro st hnd; simpa using hnd
  | cons l t ih =>
    intro st hnd
    simp only [List.foldl_cons]
    refine ih _ ?_
    unfold rrfProcessList
    rw [enum_eq_enumFrom]
    exact nodup_processFrom k l 0 st hnd

theorem mem_rrfState (k : ℕ) (q : ChunkKey) (lists : List (List Chunk)) :
    q ∈ rrfKeys (rrfState k lists) ↔ ∃ l ∈ lists, q ∈ l.map chunkKey := by
  unfold rrfState
  suffices h : ∀ (ls : List (List Chunk)) (st : List RRFEntry),
      (q ∈ rrfKeys (ls.foldl (rrfProcessList k) st)
        ↔ q ∈ rrfKeys st ∨ ∃ l ∈ ls, q ∈ l.map chunkKey) by
    rw [h lists []]
    simp [rrfKeys]
  intro ls
  induction ls with
  | nil => intro st; simp
  | cons l t ih =>
    intro st
    simp only [List.foldl_cons]
    rw [ih]
    unfold rrfProcessList
    rw [enum_eq_enumFrom, mem_processFrom k q l 0 st]
    simp only [List.mem_cons]
    constructor
    · rintro ((h | h) | ⟨l2, hl2, hq2⟩)
      · exact Or.inl h
      · exact Or.inr ⟨l, Or.inl rfl, h⟩
      · exact Or.inr ⟨l2, Or.inr hl2, hq2⟩
    · rintro (h | ⟨l2, (hl2 | hl2), hq2⟩)
      · exact Or.inl (Or.inl h)
      · exact Or.inl (Or.inr (hl2 ▸ hq2))
      · exact Or.inr ⟨l2, hl2, hq2⟩

theorem score_rrfState (k : ℕ) (q : ChunkKey) (lists : List (List Chunk)) :
    scoreOf (rrfState k lists) q = totalScore k q lists := by
  unfold rrfState totalScore
  rw [scoreOf_rrfState_fold k q lists [] (by simp [rrfKeys])]
  simp [scoreOf]

theorem entry_score_eq_scoreOf :
    ∀ (st : List RRFEntry), (rrfKeys st).Nodup → ∀ e ∈ st, e.score = scoreOf st e.key := by
  intro st
  induction st with
  | nil => intro _ e he; cases he
  | cons f t ih =>
    intro hnd e he
    have hnd' : (f.key :: List.map RRFEntry.key t).Nodup := by
      rw [rrfKeys, List.map_cons] at hnd
      exact hnd
    have h1 := List.nodup_cons.mp hnd'
    rcases List.mem_cons.mp he with he | he
    · subst he
      rw [scoreOf_cons, if_pos rfl,
        scoreOf_eq_zero_of_not_mem t e.key h1.1]
      ring
    · have hne : ¬ f.key = e.key := by
        intro hk
        exact h1.1 (hk ▸ List.mem_map_of_mem RRFEntry.key he)
      rw [scoreOf_cons, if_neg hne, ih h1.2 e he]
      ring

theorem rrfLe_total : ∀ a b : RRFEntry, rrfLe a b || rrfLe b a := by
  intro a b
  rcases le_total b.score a.score with h | h <;> simp [rrfLe, h]

theorem rrfLe_trans : ∀ a b c : RRFEntry, rrfLe a b → rrfLe b c → rrfLe a c := by
  intro a b c hab hbc
  simp only [rrfLe, decide_eq_true_eq] at *
  exact le_trans hbc hab

theorem rrf_three_singletons (X : Chunk) :
    reciprocal_rank_fusion [[X], [X], [X]] RRF_K = [⟨chunkKey X, 3 * (1 / 61), X⟩] := by
  simp only [reciprocal_rank_fusion, RRF_K, rrfState, rrfProcessList, List.foldl_cons,
    List.foldl_nil, enum_eq_enumFrom, List.enumFrom, rrfInsert, List.any_nil,
    List.any_cons, List.nil_append, List.map_cons, List.map_nil, sortByRel, insertByRel]
  norm_num [rrfContribution]
  simp [sortByRel, insertByRel]

/-- C1: for every finite family of ranked candidate lists,
`reciprocal_rank_fusion` (with the default constant `k = 60`) returns
exactly one output entry per distinct `(file, start_line, end_line)` triple
occurring in the inputs (output keys are duplicate-free, and a triple
appears in the output iff it occurs in some input list); the accumulated
score of each entry equals the sum over the input lists of that triple's
per-list contributions `1/(60 + r + 1)` at its 0-based rank(s) `r` (so a
list not containing the triple contributes `0`); the output is sorted by
score descending; and three one-item lists each containing the same chunk
`X` at rank 0 yield the single entry `X` with score `3 × 1/61`. -/
theorem c1_rrf_fusion (results_lists : List (List Chunk)) (q : ChunkKey) (X : Chunk) :
    ((reciprocal_rank_fusion results_lists RRF_K).map RRFEntry.key).Nodup ∧
    (q ∈ (reciprocal_rank_fusion results_lists RRF_K).map RRFEntry.key ↔
      ∃ l ∈ results_lists, ∃ c ∈ l, chunkKey c = q) ∧
    (∀ e ∈ reciprocal_rank_fusion results_lists RRF_K,
      e.score = totalScore RRF_K e.key results_lists) ∧
    (reciprocal_rank_fusion results_lists RRF_K).Pairwise
      (fun a b => b.score ≤ a.score) ∧
    reciprocal_rank_fusion [[X], [X], [X]] RRF_K = [⟨chunkKey X, 3 * (1 / 61), X⟩] := by
  have hperm := perm_sortByRel rrfLe (rrfState RRF_K results_lists)
  have hkeys : ((reciprocal_rank_fusion results_lists RRF_K).map RRFEntry.key).Perm
      (rrfKeys (rrfState RRF_K results_lists)) := hperm.map RRFEntry.key
  refine ⟨?_, ?_, ?_, ?_, rrf_three_singletons X⟩
  · exact hkeys.nodup_iff.mpr (nodup_rrfState RRF_K results_lists)
  · rw [hkeys.mem_iff, mem_rrfState]
    constructor
    · rintro ⟨l, hl, hq⟩
      rcases List.mem_map.mp hq with ⟨c, hc, hck⟩
      exact ⟨l, hl, c, hc, hck⟩
    · rintro ⟨l, hl, c, hc, hck⟩
      exact ⟨l, hl, List.mem_map.mpr ⟨c, hc, hck⟩⟩
  · intro e he
    have he' : e ∈ rrfState RRF_K results_lists := hperm.mem_iff.mp he
    rw [entry_score_eq_scoreOf (rrfState RRF_K results_lists)
      (nodup_rrfState RRF_K results_lists) e he']
    exact score_rrfState RRF_K e.key results_lists
  · have hp := pairwise_sortByRel rrfLe rrfLe_total rrfLe_trans
      (rrfState RRF_K results_lists)
    exact hp.imp (fun h => by simpa [rrfLe, decide_eq_true_eq] using h)

/-! ### Selector lemmas and claims C3, C4, C5, C7 -/

/-- Specification-side description of the final merge as the amended claim
C5 states it: walk the reranked list keeping a chunk iff its file is not in
`seen` (initially the targeted files), adding each kept chunk's file to
`seen`. -/
def mergeDedupByFile (seen : List PyStr) : List Chunk → List Chunk
  | [] => []
  | c :: cs =>
    if c.file ∈ seen then mergeDedupByFile seen cs
    else c :: mergeDedupByFile (seen ++ [c.file]) cs

/-- Specification-side description of the merge as claim C5 originally
states it: a reranked chunk is kept iff its file is not among the targeted
chunks' files. -/
def mergeClaimC5 (targeted reranked : List Chunk) : List Chunk :=
  targeted ++ reranked.filter (fun c => decide (c.file ∉ targeted.map Chunk.file))

theorem selectTop_fold_eq :
    ∀ (r : List Chunk) (a : List Chunk) (s : List PyStr),
      (r.foldl
        (fun acc c => if c.file ∈ acc.2 then acc else (acc.1 ++ [c], acc.2 ++ [c.file]))
        (a, s)).1 = a ++ mergeDedupByFile s r := by
  intro r
  induction r with
  | nil => intro a s; simp [mergeDedupByFile]
  | cons c t ih =>
    intro a s
    by_cases h : c.file ∈ s
    · simp only [List.foldl_cons, h, if_true, mergeDedupByFile, ite_true]
      exact ih a s
    · simp only [List.foldl_cons, h, if_false, mergeDedupByFile, ite_false]
      rw [ih (a ++ [c]) (s ++ [c.file])]
      simp

/-- C5 (amended): the final merge keeps targeted chunks first and then
appends exactly those reranked chunks whose file has not been seen yet,
where the seen set starts as the targeted files and grows with every
appended reranked chunk. -/
theorem c5_merge_dedup_amended (targeted reranked : List Chunk) :
    selectTopChunks targeted reranked =
      targeted ++ mergeDedupByFile (targeted.map Chunk.file) reranked :=
  selectTop_fold_eq reranked targeted (targeted.map Chunk.file)

/-- C5 (counterexample): with no targeted chunks and two reranked chunks
from the same file, the code keeps only the first, while the claim as
stated ("skipped iff its file appears among the targeted files") would keep
both. -/
theorem c5_counterexample :
    selectTopChunks []
        [⟨pys "f.py", 1, 10, pys "a"⟩, ⟨pys "f.py", 11, 20, pys "b"⟩]
      = [⟨pys "f.py", 1, 10, pys "a"⟩] ∧
    mergeClaimC5 []
        [⟨pys "f.py", 1, 10, pys "a"⟩, ⟨pys "f.py", 11, 20, pys "b"⟩]
      = [⟨pys "f.py", 1, 10, pys "a"⟩, ⟨pys "f.py", 11, 20, pys "b"⟩] ∧
    selectTopChunks []
        [⟨pys "f.py", 1, 10, pys "a"⟩, ⟨pys "f.py", 11, 20, pys "b"⟩]
      ≠ mergeClaimC5 []
        [⟨pys "f.py", 1, 10, pys "a"⟩, ⟨pys "f.py", 11, 20, pys "b"⟩] := by
  refine ⟨by decide, by decide, by decide⟩

/-- C3: for every non-empty list of targeted chunks, the final selection
starts with the targeted chunks, unchanged and in order (so none is
dropped or reranked), followed only by reranked search chunks. -/
theorem c3_targeted_retained (targeted reranked : List Chunk)
    (h : targeted ≠ []) :
    (∃ rest, selectTopChunks targeted reranked = targeted ++ rest) ∧
    ∀ c ∈ targeted, c ∈ selectTopChunks targeted reranked := by
  refine ⟨⟨mergeDedupByFile (targeted.map Chunk.file) reranked,
    c5_merge_dedup_amended targeted reranked⟩, ?_⟩
  intro c hc
  rw [c5_merge_dedup_amended targeted reranked]
  exact List.mem_append_left _ hc

/-- Witness for C3 at a concrete non-empty targeted list. -/
theorem c3_targeted_retained_witness :
    (∃ rest, selectTopChunks [⟨pys "a.py", 1, 2, pys "x"⟩] []
      = [⟨pys "a.py", 1, 2, pys "x"⟩] ++ rest) ∧
    ∀ c ∈ [(⟨pys "a.py", 1, 2, pys "x"⟩ : Chunk)],
      c ∈ selectTopChunks [⟨pys "a.py", 1, 2, pys "x"⟩] [] :=
  c3_targeted_retained [⟨pys "a.py", 1, 2, pys "x"⟩] [] (by decide)

theorem rerank_length_le (model : Option (PyStr → Chunk → ℚ)) (query : PyStr)
    (chunks : List Chunk) (top_k : ℕ) :
    (rerank model query chunks top_k).length ≤ top_k := by
  cases model with
  | none => simpa [rerank] using List.length_take_le top_k chunks
  | some f =>
    by_cases h : chunks.isEmpty
    · simpa [rerank, h] using List.length_take_le top_k chunks
    · simpa [rerank, h] using
        List.length_take_le top_k (sortByRel (fun a b => decide (f query b ≤ f query a)) chunks)

/-- C4: the slot budget for non-targeted chunks is
`max(3, 8 − len(targeted))`, and the reranker returns at most that many
search chunks. -/
theorem c4_slot_budget (n : ℕ) :
    slots_remaining n = max 3 (8 - (n : ℤ)) ∧
    ∀ (model : Option (PyStr → Chunk → ℚ)) (query : PyStr) (chunks : List Chunk),
      (rerank model query chunks (slots_remaining n).toNat).length
        ≤ (slots_remaining n).toNat := by
  constructor
  · by_cases h : (8 : ℤ) - (n : ℤ) < 3
    · simp only [slots_remaining]
      rw [if_pos h, max_eq_left (by omega)]
    · simp only [slots_remaining]
      rw [if_neg h, max_eq_right (by omega)]
  · intro model query chunks
    exact rerank_length_le model query chunks (slots_remaining n).toNat

/-- C7: when the scoring model is unavailable (`self.model is None`),
`rerank` returns the first `top_k` candidates in their given order,
unmodified (no scores attached), for every query and candidate list; the
function is total, so no error is raised. -/
theorem c7_rerank_model_unavailable (query : PyStr) (chunks : List Chunk)
    (top_k : ℕ) :
    rerank none query chunks top_k = chunks.take top_k := rfl

/-! ### Call graph edge resolution (src/src/tools/call_graph.py,
`CallGraph._resolve_call`)

`known_symbols` is a Python set of qualified names; it is modelled as a
list used only through membership and unique-match counting. -/

/-- Step 2 of `_resolve_call`: `self.method` with a parent class resolves
to `parent.method` when that is a known symbol. -/
def resolveSelfMethod (call_name : PyStr) (parentCls : Option PyStr)
    (known : List PyStr) : Option PyStr :=
  match parentCls with
  | none => none
  | some p =>
    if strStartsWith call_name (pys "self.") then
      let resolved := p ++ ('.' :: call_name.drop 5)
      if resolved ∈ known then some resolved else none
    else none

/-- Step 3 of `_resolve_call`: when the raw text contains a dot, strip to
the bare name; first try the bare name as a known symbol, then a unique
`.<bare>` suffix match. -/
def resolveBareName (call_name : PyStr) (known : List PyStr) : Option PyStr :=
  if '.' ∈ call_name then
    let bare := lastComponent call_name
    if bare ∈ known then some bare
    else
      let suffixMatches := known.filter (fun s => strEndsWith s ('.' :: bare))
      if suffixMatches.length = 1 then suffixMatches.head? else none
  else none

/-- Step 4 of `_resolve_call`: try `parent_class.call_name`. -/
def resolveParentQualified (call_name : PyStr) (parentCls : Option PyStr)
    (known : List PyStr) : Option PyStr :=
  match parentCls with
  | none => none
  | some p =>
    if p ++ ('.' :: call_name) ∈ known then some (p ++ ('.' :: call_name)) else none

/-- `CallGraph._resolve_call`: the code's actual resolution chain. -/
def resolve_call (call_name : PyStr) (parentCls : Option PyStr)
    (known : List PyStr) : Option PyStr :=
  if call_name ∈ known then some call_name
  else
    match resolveSelfMethod call_name parentCls known with
    | some r => some r
    | none =>
      match resolveBareName call_name known with
      | some r => some r
      | none => resolveParentQualified call_name parentCls known

/-- Rule (a) of the claimed precedence: exact match. -/
def ruleExact (call_name : PyStr) (known : List PyStr) : Option PyStr :=
  if call_name ∈ known then some call_name else none

/-- The bare-name exact rule the code applies between the claimed rules (b)
and (c): if the raw text contains a dot and the text after the last dot is
itself a known qualified name, resolve to that bare name. -/
def ruleBareExact (call_name : PyStr) (known : List PyStr) : Option PyStr :=
  if '.' ∈ call_name ∧ lastComponent call_name ∈ known then
    some (lastComponent call_name)
  else none

/-- Rule (c) of the claimed precedence, read literally: strip everything
before the last dot and take the unique known symbol ending in
`.<bare name>`, if exactly one exists. -/
def ruleUniqueSuffix (call_name : PyStr) (known : List PyStr) : Option PyStr :=
  let suffixMatches := known.filter (fun s => strEndsWith s ('.' :: lastComponent call_name))
  if suffixMatches.length = 1 then suffixMatches.head? else none

/-- Rule (c) restricted to raw texts that contain a dot (the code only
attempts suffix matching in that case). -/
def ruleUniqueSuffixDotted (call_name : PyStr) (known : List PyStr) : Option PyStr :=
  if '.' ∈ call_name then ruleUniqueSuffix call_name known else none

/-- Specification-side resolver following claim C2's precedence (a)–(e)
exactly as stated, with no other rule. -/
def resolveClaimC2 (call_name : PyStr) (parentCls : Option PyStr)
    (known : List PyStr) : Option PyStr :=
  match ruleExact call_name known with
  | some r => some r
  | none =>
    match resolveSelfMethod call_name parentCls known with
    | some r => some r
    | none =>
      match ruleUniqueSuffix call_name known with
      | some r => some r
      | none => resolveParentQualified call_name parentCls known

/-- Specification-side resolver following the amended precedence: (a) exact
match; (b) `self.<method>` with parent class; (b') bare-name exact match
for dotted raw text; (c) unique `.<bare>` suffix match, attempted only for
dotted raw text; (d) parent-qualified; (e) otherwise unresolved. -/
def resolveAmendedC2 (call_name : PyStr) (parentCls : Option PyStr)
    (known : List PyStr) : Option PyStr :=
  match ruleExact call_name known with
  | some r => some r
  | none =>
    match resolveSelfMethod call_name parentCls known with
    | some r => some r
    | none =>
      match ruleBareExact call_name known with
      | some r => some r
      | none =>
        match ruleUniqueSuffixDotted call_name known with
        | some r => some r
        | none => resolveParentQualified call_name parentCls known

theorem resolveBareName_eq_rules (call_name : PyStr) (known : List PyStr) :
    resolveBareName call_name known =
      match ruleBareExact call_name known with
      | some r => some r
      | none => ruleUniqueSuffixDotted call_name known := by
  by_cases hd : '.' ∈ call_name
  · by_cases hb : lastComponent call_name ∈ known
    · simp [resolveBareName, ruleBareExact, ruleUniqueSuffixDotted, hd, hb]
    · simp [resolveBareName, ruleBareExact, ruleUniqueSuffixDotted, ruleUniqueSuffix, hd, hb]
  · simp [resolveBareName, ruleBareExact, ruleUniqueSuffixDotted, hd]

/-- C2 (amended): `_resolve_call` implements exactly the precedence
(a) exact, (b) self-method, (b') bare-name exact for dotted text,
(c) unique suffix for dotted text, (d) parent-qualified, (e) drop. -/
theorem c2_resolve_call_amended (call_name : PyStr) (parentCls : Option PyStr)
    (known : List PyStr) :
    resolve_call call_name parentCls known =
      resolveAmendedC2 call_name parentCls known := by
  unfold resolve_call resolveAmendedC2 ruleExact
  by_cases h1 : call_name ∈ known
  · simp [h1]
  · simp only [h1, if_false, ite_false]
    cases hs : resolveSelfMethod call_name parentCls known with
    | some r => rfl
    | none =>
      rw [resolveBareName_eq_rules]
      cases hb : ruleBareExact call_name known with
      | some r => rfl
      | none =>
        cases hu : ruleUniqueSuffixDotted call_name known with
        | some r => rfl
        | none => rfl

/-- C2 (counterexample): for the raw call `"obj.helper"`, no parent class,
and the known symbols `{"helper"}`, the code resolves to the bare name
`"helper"`, while the claimed precedence (a)–(e) resolves nothing ("helper"
is not an exact match, is not a `self.` call, ends in no `.helper` suffix,
and has no parent to qualify with), so the claim's "no other resolution
rule is applied" is false. -/
theorem c2_counterexample :
    resolve_call (pys "obj.helper") none [pys "helper"] = some (pys "helper") ∧
    resolveClaimC2 (pys "obj.helper") none [pys "helper"] = none ∧
    resolve_call (pys "obj.helper") none [pys "helper"] ≠
      resolveClaimC2 (pys "obj.helper") none [pys "helper"] := by
  refine ⟨by decide, by decide, by decide⟩

/-! ### Call graph chain tracing (src/src/tools/call_graph.py,
`CallGraph.trace_chain` / `_trace_recursive` / `_fuzzy_resolve`)

The graph state is the two `defaultdict(set)` adjacency maps plus the keys
of `node_info` (the per-node metadata record — file, span, params,
docstring — is not needed by any claim and is not modelled; the claims
concern names, truncation and recursion structure). Adjacency sets are
modelled as lists; `sorted(neighbors)` sorts them lexicographically. -/

structure CGraph where
  nodes : List PyStr
  callees : List (PyStr × List PyStr)
  callers : List (PyStr × List PyStr)

/-- `self.callees.get(name, set())` on the association-list model. -/
def adjLookup (m : List (PyStr × List PyStr)) (k : PyStr) : List PyStr :=
  ((m.find? (fun p => p.1 = k)).map Prod.snd).getD []

/-- Lexicographic string comparison used to model Python's `sorted` on
neighbor names. -/
def strLe : PyStr → PyStr → Bool
  | [], _ => true
  | _ :: _, [] => false
  | a :: as, b :: bs => if a < b then true else if b < a then false else strLe as bs

/-- `CallGraph._fuzzy_resolve`: exact match, then first case-insensitive
match in insertion order, then unique `.suffix`-or-equal match, then unique
substring match, else unresolved. -/
def fuzzy_resolve (g : CGraph) (name : PyStr) : Option PyStr :=
  if name ∈ g.nodes then some name
  else
    match g.nodes.find? (fun k => strLower k = strLower name) with
    | some k => some k
    | none =>
      let m1 := g.nodes.filter (fun k => strEndsWith k ('.' :: name) || k = name)
      if m1.length = 1 then m1.head?
      else
        let m2 := g.nodes.filter (fun k => strContainsSub (strLower k) (strLower name))
        if m2.length = 1 then m2.head? else none

/-- The tree returned by `_trace_recursive`: node name, `truncated` and
`not_found` markers, and the `calls`/`called_by` children list. -/
inductive TraceNode where
  | node (name : PyStr) (truncated : Bool) (notFound : Bool)
      (children : List TraceNode) : TraceNode

/-- `CallGraph._trace_recursive`. The Python `visited` set is one shared
mutable object, so it is threaded through the recursion and through the
children fold exactly as the mutation order does; `depth <= 0` and
revisited nodes return a truncated leaf without recursing. -/
def trace_recursive (g : CGraph) (dir : PyStr) :
    ℕ → PyStr → List PyStr → TraceNode × List PyStr
  | 0, name, visited => (.node name true false [], visited)
  | d + 1, name, visited =>
    if name ∈ visited then (.node name true false [], visited)
    else
      let visited1 := name :: visited
      let neighbors := sortByRel strLe
        (adjLookup (if dir = pys "down" then g.callees else g.callers) name)
      let res := neighbors.foldl
        (fun acc nb =>
          let r := trace_recursive g dir d nb acc.2
          (acc.1 ++ [r.1], r.2))
        (([] : List TraceNode), visited1)
      (.node name false false res.1, res.2)

/-- `CallGraph.trace_chain`: fuzzy-resolve the name (returning a
`not_found` node on failure) and trace from the resolved node with an
empty visited set. -/
def trace_chain (g : CGraph) (name : PyStr) (dir : PyStr) (depth : ℕ) :
    TraceNode :=
  match fuzzy_resolve g name with
  | none => .node name false true []
  | some r => (trace_recursive g dir depth r []).1

/-- The two-node cyclic graph A→B→A. -/
def cycleGraph : CGraph where
  nodes := [pys "A", pys "B"]
  callees := [(pys "A", [pys "B"]), (pys "B", [pys "A"])]
  callers := [(pys "A", [pys "B"]), (pys "B", [pys "A"])]

/-- C6: `trace_chain` terminates on every graph (it is a total function of
a decreasing depth); a node already in the visited set is returned as a
leaf with the truncated marker, for every graph, direction, depth and
visited set; and on the cyclic graph A→B→A, `trace_chain("A", "down", 5)`
yields the finite tree A → B → A(truncated), with the truncated marker
exactly at the revisit of A. -/
theorem c6_trace_chain_cycle :
    (∀ (g : CGraph) (dir : PyStr) (depth : ℕ) (name : PyStr)
        (visited : List PyStr), name ∈ visited →
      trace_recursive g dir depth name visited = (.node name true false [], visited)) ∧
    trace_chain cycleGraph (pys "A") (pys "down") 5 =
      .node (pys "A") false false
        [.node (pys "B") false false
          [.node (pys "A") true false []]] := by
  constructor
  · intro g dir depth name visited h
    cases depth with
    | zero => rfl
    | succ d => simp [trace_recursive, h]
  · rfl

/-! ### Vector index cache loading (src/src/tools/vector_search_tool.py,
`VectorSearchTool._load_cache` / `build_index`)

The FAISS index is abstracted to its vector count (`ntotal`); the on-disk
cache is abstracted to the optional contents of the two cache files plus a
flag for a read raising an exception. The filesystem walk `_chunk_files`
is an external effect and appears as the explicit `chunks` input of
`build_index`. -/

structure FaissIndex where
  ntotal : ℕ
deriving DecidableEq, Repr

/-- The tool's in-memory state: `self.index` and `self.metadata`. -/
structure VecToolState where
  index : Option FaissIndex
  metadata : List Chunk
deriving DecidableEq, Repr

/-- The on-disk cache: the index file's vector count and the metadata file,
when each exists, plus whether reading them raises. -/
structure DiskCache where
  indexFile : Option ℕ
  metaFile : Option (List Chunk)
  readError : Bool
deriving DecidableEq, Repr

/-- `_load_cache`: missing files return failure without touching the
in-memory state; a read exception or a count mismatch clears
`self.index`/`self.metadata` and returns failure; otherwise the cache is
loaded and success returned. -/
def load_cache (disk : DiskCache) (st : VecToolState) : VecToolState × Bool :=
  match disk.indexFile, disk.metaFile with
  | some n, some meta =>
    if disk.readError then (⟨none, []⟩, false)
    else if n ≠ meta.length then (⟨none, []⟩, false)
    else (⟨some ⟨n⟩, meta⟩, true)
  | _, _ => (st, false)

/-- `build_index`: use the cache when not forced and loading succeeds;
otherwise chunk the files (given here as the `chunks` input), and if any
exist, build a fresh index with one vector per chunk and set the metadata.
Returns the new state and the reported vector count. -/
def build_index (disk : DiskCache) (st : VecToolState) (force_rebuild : Bool)
    (chunks : List Chunk) : VecToolState × ℕ :=
  let afterLoad := if force_rebuild then (st, false) else load_cache disk st
  if afterLoad.2 then
    (afterLoad.1, ((afterLoad.1).index.map FaissIndex.ntotal).getD 0)
  else if chunks.isEmpty then (afterLoad.1, 0)
  else (⟨some ⟨chunks.length⟩, chunks⟩, chunks.length)

/-- C8: when the cached vector count differs from the cached metadata
count, `_load_cache` clears the in-memory index and metadata and reports
failure, and `build_index` (not force-rebuilding) performs a full rebuild
from the freshly chunked files instead of using the mismatched cache. -/
theorem c8_cache_mismatch_rebuild (n : ℕ) (meta : List Chunk)
    (disk : DiskCache) (st : VecToolState) (chunks : List Chunk)
    (hidx : disk.indexFile = some n) (hmeta : disk.metaFile = some meta)
    (herr : disk.readError = false) (hmm : n ≠ meta.length)
    (hchunks : chunks ≠ []) :
    load_cache disk st = (⟨none, []⟩, false) ∧
    build_index disk st false chunks = (⟨some ⟨chunks.length⟩, chunks⟩, chunks.length) := by
  have hload : load_cache disk st = (⟨none, []⟩, false) := by
    unfold load_cache
    rw [hidx, hmeta]
    simp [herr, hmm]
  refine ⟨hload, ?_⟩
  unfold build_index
  have hne : ¬ chunks.isEmpty = true := by simpa [List.isEmpty_iff] using hchunks
  simp [hload, hne]

/-- Witness for C8 at a concrete mismatched cache (2 cached vectors, 1
cached metadata entry). -/
theorem c8_cache_mismatch_rebuild_witness :
    load_cache ⟨some 2, some [⟨pys "a.py", 1, 2, pys "x"⟩], false⟩ ⟨none, []⟩
      = (⟨none, []⟩, false) ∧
    build_index ⟨some 2, some [⟨pys "a.py", 1, 2, pys "x"⟩], false⟩ ⟨none, []⟩ false
        [⟨pys "b.py", 1, 3, pys "y"⟩]
      = (⟨some ⟨1⟩, [⟨pys "b.py", 1, 3, pys "y"⟩]⟩, 1) :=
  c8_cache_mismatch_rebuild 2 [⟨pys "a.py", 1, 2, pys "x"⟩]
    ⟨some 2, some [⟨pys "a.py", 1, 2, pys "x"⟩], false⟩ ⟨none, []⟩
    [⟨pys "b.py", 1, 3, pys "y"⟩] rfl rfl rfl (by decide) (by decide)

/-! ### Symbol extraction index (src/src/tools/symbol_extractor.py,
`SymbolExtractor.extract_from_directory`)

The directory walk and per-file parsers are external effects: each walked
file appears as a record carrying its relative path, its extension (as
computed by `os.path.splitext(...)[1].lower()`), and the symbol list its
family's extractor would return (empty on parse failure or when the file
yields no symbols). The dispatch on extension and the "insert only when
non-empty" accumulation are the modelled logic. -/

/-- A symbol record as produced by the extractors (fields beyond the kind
tag are irrelevant to the accumulation logic but kept for fidelity). -/
structure SymbolRec where
  kind : PyStr
  name : PyStr
  parentCls : Option PyStr
  start_line : ℕ
  end_line : ℕ
  calls : List PyStr
deriving DecidableEq, Repr

/-- A file seen by the directory walk. -/
structure SrcFile where
  rel_path : PyStr
  ext : PyStr
  parsed : List SymbolRec
deriving DecidableEq, Repr

def PYTHON_EXTENSIONS : List PyStr := [pys ".py"]

def JS_EXTENSIONS : List PyStr := [pys ".js", pys ".jsx", pys ".ts", pys ".tsx"]

def C_FAMILY_EXTENSIONS : List PyStr :=
  [pys ".c", pys ".cpp", pys ".h", pys ".hpp", pys ".cs", pys ".java",
   pys ".go", pys ".rs", pys ".kt", pys ".swift"]

/-- The extension dispatch of the walk body: python/JS/C-family files run
their extractor (modelled by the file's `parsed` field); any other
extension leaves `symbols` as the initial empty list. -/
def extractFileSymbols (f : SrcFile) : List SymbolRec :=
  if f.ext ∈ PYTHON_EXTENSIONS then f.parsed
  else if f.ext ∈ JS_EXTENSIONS then f.parsed
  else if f.ext ∈ C_FAMILY_EXTENSIONS then f.parsed
  else []

/-- `self.symbols[rel_path] = symbols` on the insertion-ordered dict
model: overwrite an existing key, else append. -/
def insertAssoc (m : List (PyStr × List SymbolRec)) (k : PyStr) (v : List SymbolRec) :
    List (PyStr × List SymbolRec) :=
  if m.any (fun p => p.1 = k) then
    m.map (fun p => if p.1 = k then (k, v) else p)
  else m ++ [(k, v)]

/-- `extract_from_directory` (rebuild path): walk the files, extract each,
and record `rel_path → symbols` only when the symbol list is non-empty. -/
def extract_from_directory (files : List SrcFile) : List (PyStr × List SymbolRec) :=
  files.foldl
    (fun acc f =>
      let symbols := extractFileSymbols f
      if symbols.isEmpty then acc else insertAssoc acc f.rel_path symbols)
    []

theorem insertAssoc_forall (m : List (PyStr × List SymbolRec)) (k : PyStr)
    (v : List SymbolRec) (hv : v ≠ [])
    (hm : ∀ p ∈ m, p.2 ≠ []) :
    ∀ p ∈ insertAssoc m k v, p.2 ≠ [] := by
  intro p hp
  unfold insertAssoc at hp
  by_cases h : m.any (fun x => x.1 = k)
  · rw [if_pos h] at hp
    rcases List.mem_map.mp hp with ⟨q, hq, hqp⟩
    by_cases hk : q.1 = k
    · rw [if_pos hk] at hqp
      rw [← hqp]
      exact hv
    · rw [if_neg hk] at hqp
      exact hqp ▸ hm q hq
  · rw [if_neg h] at hp
    rcases List.mem_append.mp hp with hp | hp
    · exact hm p hp
    · have : p = (k, v) := by simpa using hp
      rw [this]
      exact hv

/-- C10: every entry of the mapping returned by `extract_from_directory`
has a non-empty symbol list — files that fail to parse, have an
unsupported extension, or yield no symbols are omitted entirely. -/
theorem c10_symbol_index_nonempty (files : List SrcFile) :
    ∀ p ∈ extract_from_directory files, p.2 ≠ [] := by
  unfold extract_from_directory
  suffices h : ∀ (fs : List SrcFile) (acc : List (PyStr × List SymbolRec)),
      (∀ p ∈ acc, p.2 ≠ []) →
      ∀ p ∈ fs.foldl
        (fun acc f =>
          let symbols := extractFileSymbols f
          if symbols.isEmpty then acc else insertAssoc acc f.rel_path symbols)
        acc, p.2 ≠ [] by
    exact h files [] (by simp)
  intro fs
  induction fs with
  | nil => intro acc hacc p hp; exact hacc p hp
  | cons f t ih =>
    intro acc hacc
    simp only [List.foldl_cons]
    by_cases hs : (extractFileSymbols f).isEmpty
    · simp only [hs, if_true, ite_true]
      exact ih acc hacc
    · simp only [hs, if_false, Bool.false_eq_true, ite_false]
      refine ih _ ?_
      exact insertAssoc_forall acc f.rel_path (extractFileSymbols f)
        (by simpa [List.isEmpty_iff] using hs) hacc

/-- Witness for C10: a directory with one parsed Python file, one Python
file yielding no symbols, and one unsupported-extension file produces a
mapping whose single entry has a non-empty list. -/
theorem c10_symbol_index_nonempty_witness :
    (pys "a.py", [⟨pys "function", pys "foo", none, 1, 2, []⟩]) ∈
      extract_from_directory
        [⟨pys "a.py", pys ".py", [⟨pys "function", pys "foo", none, 1, 2, []⟩]⟩,
         ⟨pys "b.py", pys ".py", []⟩,
         ⟨pys "c.txt", pys ".txt", [⟨pys "function", pys "bar", none, 1, 2, []⟩]⟩] ∧
    ([⟨pys "function", pys "foo", none, 1, 2, []⟩] : List SymbolRec) ≠ [] := by
  refine ⟨by decide, ?_⟩
  exact c10_symbol_index_nonempty
    [⟨pys "a.py", pys ".py", [⟨pys "function", pys "foo", none, 1, 2, []⟩]⟩,
     ⟨pys "b.py", pys ".py", []⟩,
     ⟨pys "c.txt", pys ".txt", [⟨pys "function", pys "bar", none, 1, 2, []⟩]⟩]
    (pys "a.py", [⟨pys "function", pys "foo", none, 1, 2, []⟩])
    (by decide)

/-! ### Fixed-window chunking (src/src/tools/vector_search_tool.py,
`VectorSearchTool._split_into_chunks`)

A file's text is its `readlines()` output: a list of line strings (each
usually ending in a newline). `CHUNK_SIZE = 50`, `CHUNK_OVERLAP = 10`;
the loop advances `start` by `CHUNK_SIZE - CHUNK_OVERLAP = 40`. -/

def CHUNK_SIZE : ℕ := 50

def CHUNK_OVERLAP : ℕ := 10

/-- `"".join(lines[s:e])`. -/
def sliceJoin (lines : List PyStr) (s e : ℕ) : PyStr :=
  ((lines.drop s).take (e - s)).flatten

/-- The sliding-window chunk content header
`f"File: {rel_path} (lines {start + 1}-{end})\n\n"`. -/
def chunk_header (rel : PyStr) (s e : ℕ) : PyStr :=
  pys "File: " ++ rel ++ pys " (lines " ++ natStr s ++ pys "-" ++ natStr e
    ++ pys ")\n\n"

/-- The `while start < total_lines` loop of `_split_into_chunks`. -/
def split_loop (rel : PyStr) (lines : List PyStr) (start : ℕ) : List Chunk :=
  if h : start < lines.length then
    let e := min (start + CHUNK_SIZE) lines.length
    let content := pyStrip (sliceJoin lines start e)
    let rest := split_loop rel lines (start + (CHUNK_SIZE - CHUNK_OVERLAP))
    if content = [] then rest
    else ⟨rel, start + 1, e, chunk_header rel (start + 1) e ++ content⟩ :: rest
  else []
termination_by lines.length - start
decreasing_by
  simp only [CHUNK_SIZE, CHUNK_OVERLAP]
  omega

/-- `_split_into_chunks`: a file of at most `CHUNK_SIZE` lines becomes a
single whole-file chunk when its stripped content is non-empty (and no
chunk otherwise); larger files go through the sliding-window loop. -/
def split_into_chunks (rel : PyStr) (lines : List PyStr) : List Chunk :=
  if lines.length ≤ CHUNK_SIZE then
    let content := pyStrip lines.flatten
    if content = [] then []
    else [⟨rel, 1, lines.length, pys "File: " ++ rel ++ pys "\n\n" ++ content⟩]
  else split_loop rel lines 0

/-- Number of candidate window starts `0, 40, 80, …` below `total`:
`⌈total / 40⌉`. -/
def windowCount (total : ℕ) : ℕ := (total + 39) / 40

/-- Specification-side j-th candidate window: start line `40·j + 1`,
end line `min(40·j + 50, total)` (so consecutive candidate windows start
40 lines apart and overlap by 10 lines when full), kept iff its stripped
content is non-empty. -/
def windowChunk (rel : PyStr) (lines : List PyStr) (j : ℕ) : Option Chunk :=
  let s := 40 * j
  let e := min (s + 50) lines.length
  let content := pyStrip (sliceJoin lines s e)
  if content = [] then none
  else some ⟨rel, s + 1, e, chunk_header rel (s + 1) e ++ content⟩

/-- Specification-side window chunking: all candidate windows with
non-empty stripped content, in order. -/
def windowChunks (rel : PyStr) (lines : List PyStr) : List Chunk :=
  (List.range (windowCount lines.length)).filterMap (windowChunk rel lines)

theorem split_loop_eq_gen (rel : PyStr) (lines : List PyStr) :
    ∀ (fuel j : ℕ), windowCount lines.length - j = fuel →
      split_loop rel lines (40 * j) =
        (List.range' j fuel).filterMap (windowChunk rel lines) := by
  intro fuel
  induction fuel with
  | zero =>
    intro j hj
    have hge : ¬ 40 * j < lines.length := by
      intro hlt
      have : j < windowCount lines.length := by
        unfold windowCount
        omega
      omega
    rw [split_loop, dif_neg hge]
    simp
  | succ f ih =>
    intro j hj
    have hjlt : j < windowCount lines.length := by omega
    have hlt : 40 * j < lines.length := by
      unfold windowCount at hjlt
      omega
    rw [split_loop, dif_pos hlt]
    have h40 : 40 * j + (CHUNK_SIZE - CHUNK_OVERLAP) = 40 * (j + 1) := by
      simp only [CHUNK_SIZE, CHUNK_OVERLAP]
      ring
    have h50 : 40 * j + CHUNK_SIZE = 40 * j + 50 := by
      simp only [CHUNK_SIZE]
    have hrange : List.range' j (f + 1) = j :: List.range' (j + 1) f :=
      List.range'_succ j f 1
    rw [hrange, List.filterMap_cons]
    have hrec : split_loop rel lines (40 * j + (CHUNK_SIZE - CHUNK_OVERLAP)) =
        (List.range' (j + 1) f).filterMap (windowChunk rel lines) := by
      rw [h40]
      exact ih (j + 1) (by omega)
    by_cases hc : pyStrip (sliceJoin lines (40 * j) (min (40 * j + 50) lines.length)) = []
    · rw [h50]
      simp only [hc, if_true, ite_true]
      rw [hrec]
      unfold windowChunk
      simp only [hc, ite_true]
    · rw [h50]
      simp only [hc, if_false, ite_false]
      rw [hrec]
      unfold windowChunk
      simp only [hc, ite_false]

theorem split_into_chunks_eq_windows (rel : PyStr) (lines : List PyStr)
    (h : 50 < lines.length) :
    split_into_chunks rel lines = windowChunks rel lines := by
  unfold split_into_chunks
  rw [if_neg (by simp only [CHUNK_SIZE]; omega)]
  unfold windowChunks
  rw [List.range_eq_range']
  have h0 : (0 : ℕ) = 40 * 0 := by norm_num
  rw [h0, split_loop_eq_gen rel lines (windowCount lines.length) 0 (by omega)]

theorem windowChunks_bounds (rel : PyStr) (lines : List PyStr) :
    ∀ c ∈ windowChunks rel lines,
      1 ≤ c.start_line ∧ c.start_line ≤ c.end_line ∧ c.end_line ≤ lines.length := by
  intro c hc
  rcases List.mem_filterMap.mp hc with ⟨j, hj, hcj⟩
  rw [List.mem_range] at hj
  have hlt : 40 * j < lines.length := by
    unfold windowCount at hj
    omega
  unfold windowChunk at hcj
  by_cases h : pyStrip (sliceJoin lines (40 * j) (min (40 * j + 50) lines.length)) = []
  · simp only [h, ite_true] at hcj
    cases hcj
  · simp only [h, ite_false] at hcj
    have hce : c = ⟨rel, 40 * j + 1, min (40 * j + 50) lines.length,
        chunk_header rel (40 * j + 1) (min (40 * j + 50) lines.length) ++
          pyStrip (sliceJoin lines (40 * j) (min (40 * j + 50) lines.length))⟩ := by
      exact (Option.some_injective _ hcj).symm
    rw [hce]
    dsimp only
    refine ⟨by omega, by omega, by omega⟩

/-- C9 (amended): for a file of more than 50 lines, the chunks are exactly
the candidate sliding windows — start lines `40·j + 1` (consecutive
candidate starts differ by 40, so full consecutive windows overlap by 10
lines), end lines `min(40·j + 50, total)`, the final partial window
included — filtered to those with non-empty stripped content, and every
produced chunk satisfies `1 ≤ start_line ≤ end_line ≤ total`; for a file
of fewer than 50 lines whose stripped content is non-empty, a single
whole-file chunk spanning lines 1 to the last line is produced (a
whitespace-only small file produces no chunk, which is the amendment). -/
theorem c9_fixed_window_chunking (rel : PyStr) (lines : List PyStr) :
    (50 < lines.length →
      split_into_chunks rel lines = windowChunks rel lines ∧
      ∀ c ∈ split_into_chunks rel lines,
        1 ≤ c.start_line ∧ c.start_line ≤ c.end_line ∧ c.end_line ≤ lines.length) ∧
    (lines.length < 50 → pyStrip lines.flatten ≠ [] →
      split_into_chunks rel lines =
        [⟨rel, 1, lines.length,
          pys "File: " ++ rel ++ pys "\n\n" ++ pyStrip lines.flatten⟩]) := by
  constructor
  · intro h
    refine ⟨split_into_chunks_eq_windows rel lines h, ?_⟩
    intro c hc
    rw [split_into_chunks_eq_windows rel lines h] at hc
    exact windowChunks_bounds rel lines c hc
  · intro hlen hcontent
    unfold split_into_chunks
    rw [if_pos (by simp only [CHUNK_SIZE]; omega)]
    simp only [hcontent, ite_false]

/-- C9 (counterexample): a one-line whitespace-only file is smaller than
the window size, yet `_split_into_chunks` produces no chunk at all, not a
single whole-file chunk as the claim states. -/
theorem c9_counterexample :
    ([pys " \n"] : List PyStr).length < 50 ∧
    split_into_chunks (pys "w.py") [pys " \n"] = [] := by
  refine ⟨by decide, by decide⟩

/-- Witness for C9 at concrete inputs: a 51-line file for the window
branch and a 1-line non-blank file for the whole-file branch. -/
theorem c9_fixed_window_chunking_witness :
    (split_into_chunks (pys "w.py") (List.replicate 51 (pys "x\n")) =
      windowChunks (pys "w.py") (List.replicate 51 (pys "x\n")) ∧
      ∀ c ∈ split_into_chunks (pys "w.py") (List.replicate 51 (pys "x\n")),
        1 ≤ c.start_line ∧ c.start_line ≤ c.end_line ∧
          c.end_line ≤ (List.replicate 51 (pys "x\n")).length) ∧
    split_into_chunks (pys "w.py") [pys "x\n"] =
      [⟨pys "w.py", 1, 1,
        pys "File: " ++ pys "w.py" ++ pys "\n\n" ++ pyStrip (([pys "x\n"] : List PyStr)).flatten⟩] :=
  ⟨(c9_fixed_window_chunking (pys "w.py") (List.replicate 51 (pys "x\n"))).1
      (by simp),
   (c9_fixed_window_chunking (pys "w.py") [pys "x\n"]).2 (by decide) (by decide)⟩
